import Mathlib

/-!
Verification of the TextTiling core of `readless` (src/readless/Segmentation/texttiling.py)
against its natural-language specification.

The two source functions, `tokenize_string` and `block_score`, are shallowly embedded
below.  Strings are modelled as Lean `String` (a structure over `List Char`), Python
integers as `ℤ`/`ℕ`, and the one fallible code path (Python's `index % w` raising
`ZeroDivisionError` when `w = 0` and at least one token exists) as an `Option` result.
The stop-word list and the lemmatizer are injected parameters, exactly as the spec
scopes them ("provided black-box services"); the Python code reads them from module
globals, which does not affect any property below.
-/

namespace TextTiling

/-- `[a-z]` of the token pattern: an ASCII lowercase letter. -/
def isLowerAZ (c : Char) : Bool := 97 ≤ c.toNat && c.toNat ≤ 122

/-- `[-']`: the two characters that may join letter runs inside one token. -/
def isSepChar (c : Char) : Bool := c == '-' || c == '\''

/-- Longest prefix of consecutive `[a-z]` characters, paired with the remainder
(the greedy `[a-z]+` step of the pattern). -/
def takeRun : List Char → List Char × List Char
  | [] => ([], [])
  | c :: cs =>
    if isLowerAZ c then
      let p := takeRun cs
      (c :: p.1, p.2)
    else ([], c :: cs)

/-- The greedy `(?:[-'][a-z]+)*` step: repeatedly consume a separator followed by a
letter run.  `fuel` bounds the recursion; every iteration consumes at least two
characters, so `fuel` = remaining length is always sufficient. -/
def takeExts : ℕ → List Char → List Char × List Char
  | 0, cs => ([], cs)
  | fuel + 1, sep :: c :: rest =>
    if isSepChar sep && isLowerAZ c then
      let p := takeRun (c :: rest)
      let q := takeExts fuel p.2
      (sep :: (p.1 ++ q.1), q.2)
    else ([], sep :: c :: rest)
  | _ + 1, cs => ([], cs)

/-- Left-to-right scan performing `re.findall` of
`(?:[a-z]+(?:[-'][a-z]+)*)`: any character that cannot start a match is a
separator and is skipped; a match is leftmost and (for this pattern) maximal.
`fuel` = initial length is sufficient: every recursive call drops at least
one character. -/
def findTokensGo : ℕ → List Char → List (List Char)
  | 0, _ => []
  | _ + 1, [] => []
  | fuel + 1, c :: cs =>
    if isLowerAZ c then
      let p := takeRun (c :: cs)
      let q := takeExts fuel p.2
      (p.1 ++ q.1) :: findTokensGo fuel q.2
    else findTokensGo fuel cs

/-- `re.findall(pattern, paragraph)` for the token pattern of line 69 of the source. -/
def findall (p : List Char) : List String :=
  (findTokensGo p.length p).map String.mk

/-- Python `str.strip()`: remove leading and trailing whitespace. -/
def stripChars (cs : List Char) : List Char :=
  ((cs.dropWhile Char.isWhitespace).reverse.dropWhile Char.isWhitespace).reverse

/-- Python `str.splitlines()`, modelled as splitting on `'\n'` (the inputs of this
development contain no other line-boundary characters; a trailing empty piece is
removed by the nonempty-paragraph filter exactly as in Python). -/
def splitOnNl : List Char → List (List Char)
  | [] => [[]]
  | c :: cs =>
    if c == '\n' then [] :: splitOnNl cs
    else
      match splitOnNl cs with
      | [] => [[c]]
      | l :: ls => (c :: l) :: ls

/-- Lines 66-67 of the source: split into lines, strip each, keep the nonempty ones. -/
def paragraphs (s : String) : List (List Char) :=
  ((splitOnNl s.data).map stripChars).filter (fun p => !p.isEmpty)

/-- The token stream of the whole text: per-paragraph `findall` results concatenated
in order (the loop of lines 72-75). -/
def rawTokens (s : String) : List String :=
  ((paragraphs s).map findall).flatten

/-- Token count of each nonempty paragraph, in order. -/
def paragraphTokenCounts (s : String) : List ℕ :=
  (paragraphs s).map (fun p => (findall p).length)

/-- Running totals: `cumSumsGo acc [n1, n2, ...] = [acc+n1, acc+n1+n2, ...]`,
the successive values of `token_count` appended at line 76 of the source. -/
def cumSumsGo (acc : ℕ) : List ℕ → List ℕ
  | [] => []
  | n :: ns => (acc + n) :: cumSumsGo (acc + n) ns

/-- Partial sums starting from zero. -/
def cumSums (l : List ℕ) : List ℕ := cumSumsGo 0 l

/-- Lines 72-78: the cumulative token count recorded after each paragraph, with the
final entry dropped (`paragraph_breaks[:-1]`). -/
def paragraphBreaks (s : String) : List ℕ :=
  (cumSums (paragraphTokenCounts s)).dropLast

/-- Lines 81-87: group the token stream into consecutive chunks of exactly `w`
tokens; a trailing chunk of fewer than `w` tokens is dropped (the final `count`
is never appended).  `fuel` = initial length suffices since each step drops `w ≥ 1`
tokens. -/
def chunksGo (w : ℕ) : ℕ → List String → List (List String)
  | 0, _ => []
  | fuel + 1, ts =>
    if w ≠ 0 ∧ w ≤ ts.length then ts.take w :: chunksGo w fuel (ts.drop w)
    else []

/-- The closed groups of exactly `w` raw tokens. -/
def chunksExact (w : ℕ) (ts : List String) : List (List String) :=
  chunksGo w ts.length ts

/-- Lines 90-95 of the source applied to one closed group.  The group was
accumulated as a `Counter`; iterating it yields its distinct keys (`dedup`; the
iteration order is immaterial, every later use is order-insensitive).  The first
comprehension filters on the surface form and lemmatizes once, the second
comprehension lemmatizes again, so each surviving token ends up lemmatized twice
and its within-group multiplicity is discarded. -/
def processGroup (stop : List String) (lem : String → String) (g : List String) :
    List String :=
  ((g.dedup.filter (fun t => decide (t ∉ stop))).map lem).map lem

/-- `tokenize_string` (lines 35-100).  `stop` and `lem` are the injected stop-word
list and lemmatizer.  Python raises `ZeroDivisionError` from `index % w` exactly
when `w = 0` and the token loop runs at least once, modelled as `none`; a negative
`w` satisfies `index % w == 0` exactly when `|w|` divides `index`, so it groups by
`|w|`. -/
def tokenize_string (stop : List String) (lem : String → String) (input : String)
    (w : ℤ) : Option (List (List String) × List String × List ℕ) :=
  let tokens := rawTokens input
  if w = 0 ∧ tokens ≠ [] then none
  else
    some ((chunksExact w.natAbs tokens).map (processGroup stop lem),
          tokens.dedup.filter (fun t => decide (t ∉ stop)),
          paragraphBreaks input)

/-- `current_k` of line 120: `min(gap_index, k, len(token_sequence) - gap_index)`,
truncated to `ℕ` because a non-positive value makes the accumulation loop
(`xrange(current_k)`) run zero times. -/
def currentK (k : ℤ) (n gap : ℕ) : ℕ :=
  (min (gap : ℤ) (min k ((n : ℤ) - (gap : ℤ)))).toNat

/-- The group indices read into `before_count` at a gap (line 125):
`gap_index + j - current_k` for `j = 0 .. current_k - 1`. -/
def beforeIdxs (k : ℤ) (n gap : ℕ) : List ℕ :=
  (List.range (currentK k n gap)).map (fun j => gap + j - currentK k n gap)

/-- The group indices read into `after_count` at a gap (line 126):
`gap_index + j` for `j = 0 .. current_k - 1`. -/
def afterIdxs (k : ℤ) (n gap : ℕ) : List ℕ :=
  (List.range (currentK k n gap)).map (fun j => gap + j)

/-- One gap's numerator and squared denominator (lines 129-138) computed from
multisets represented as token lists: `numerator = Σ_t before[t]·after[t]`,
`denominator² = (Σ_t before[t]²)·(Σ_t after[t]²)`, both summed over
`unique_tokens`.  All quantities are products/sums of small integers, which the
Python floats represent exactly. -/
def gapPair (vocab bef aft : List String) : ℕ × ℕ :=
  ((vocab.map (fun t => bef.count t * aft.count t)).sum,
   (vocab.map (fun t => bef.count t ^ 2)).sum *
     (vocab.map (fun t => aft.count t ^ 2)).sum)

/-- The gap loop of lines 119-143.  The state `(bef, aft)` carries the token
multisets behind `before_count` and `after_count`; crucially, the source
initializes both Counters once, before the loop, and never resets them, so each
gap appends its window groups to the state accumulated at all earlier gaps. -/
def blockGo (k : ℤ) (seqs : List (List String)) (vocab : List String) (n : ℕ) :
    List ℕ → List String × List String → List (ℕ × ℕ)
  | [], _ => []
  | gap :: gaps, st =>
    let bef := st.1 ++ ((beforeIdxs k n gap).map (fun i => seqs.getD i [])).flatten
    let aft := st.2 ++ ((afterIdxs k n gap).map (fun i => seqs.getD i [])).flatten
    gapPair vocab bef aft :: blockGo k seqs vocab n gaps (bef, aft)

/-- `block_score` (lines 102-145), returning each gap's
(numerator, squared-denominator) pair in gap order.  The emitted float score is
`numerator / sqrt(den²)`, with the denominator replaced by 1 when it is zero
(lines 140-141); that reading of a pair is spelled out inside the theorems. -/
def block_score (k : ℤ) (seqs : List (List String)) (vocab : List String) :
    List (ℕ × ℕ) :=
  blockGo k seqs vocab seqs.length (List.range' 1 (seqs.length - 1)) ([], [])

/-- Modelled from the spec (§4.2), for comparison with `block_score`: the score at
each gap computed solely from that gap's own windows, groups `[i-c, i)` against
groups `[i, i+c)`, with nothing carried over from earlier gaps. -/
def block_score_spec (k : ℤ) (seqs : List (List String)) (vocab : List String) :
    List (ℕ × ℕ) :=
  (List.range' 1 (seqs.length - 1)).map (fun gap =>
    gapPair vocab
      (((beforeIdxs k seqs.length gap).map (fun i => seqs.getD i [])).flatten)
      (((afterIdxs k seqs.length gap).map (fun i => seqs.getD i [])).flatten))

/-- The three processed groups of the spec's concrete scenario (§8). -/
def seqsC : List (List String) := [["cat", "sat"], ["mat"], ["dog", "ran", "fast"]]

/-- The scenario's vocabulary (as a list; `block_score` only sums over it). -/
def vocabC : List String := ["cat", "sat", "mat", "dog", "ran", "fast"]

/-- A three-group input whose reversal distinguishes the scorer's accumulated
state: two groups sharing the word `a`, then a disjoint group. -/
def seqsA : List (List String) := [["a"], ["a"], ["b"]]

/-- Vocabulary for `seqsA`. -/
def vocabA : List String := ["a", "b"]

/-! ### Helper lemmas -/

theorem blockGo_length (k : ℤ) (seqs : List (List String)) (vocab : List String)
    (n : ℕ) (gaps : List ℕ) (st : List String × List String) :
    (blockGo k seqs vocab n gaps st).length = gaps.length := by
  induction gaps generalizing st with
  | nil => rfl
  | cons g gs ih => simp [blockGo, ih]

theorem currentK_le_gap (k : ℤ) (n gap : ℕ) : currentK k n gap ≤ gap := by
  rw [currentK]
  exact Int.toNat_le.mpr (min_le_left _ _)

theorem currentK_le_sub (k : ℤ) {n gap : ℕ} (h : gap ≤ n) :
    currentK k n gap ≤ n - gap := by
  rw [currentK]
  refine Int.toNat_le.mpr ?_
  have hc : ((n - gap : ℕ) : ℤ) = (n : ℤ) - (gap : ℤ) := by omega
  rw [hc]
  exact le_trans (min_le_right _ _) (min_le_right _ _)

theorem currentK_of_nonpos {k : ℤ} (hk : k ≤ 0) (n gap : ℕ) :
    currentK k n gap = 0 := by
  rw [currentK]
  exact Int.toNat_of_nonpos
    (le_trans (min_le_right _ _) (le_trans (min_le_left _ _) hk))

theorem gapPair_nil (vocab : List String) : gapPair vocab [] [] = (0, 0) := by
  simp [gapPair, List.count_nil]

theorem blockGo_of_nonpos {k : ℤ} (hk : k ≤ 0) (seqs : List (List String))
    (vocab : List String) (n : ℕ) (gaps : List ℕ) :
    blockGo k seqs vocab n gaps ([], []) = gaps.map (fun _ => (0, 0)) := by
  induction gaps with
  | nil => rfl
  | cons g gs ih =>
    rw [blockGo]
    simp only [beforeIdxs, afterIdxs, currentK_of_nonpos hk, List.range_zero,
      List.map_nil, List.flatten_nil, List.append_nil, List.map_cons]
    rw [gapPair_nil, ih]

theorem cumSumsGo_length (acc : ℕ) (l : List ℕ) :
    (cumSumsGo acc l).length = l.length := by
  induction l generalizing acc with
  | nil => rfl
  | cons n ns ih => simp [cumSumsGo, ih]

theorem cumSumsGo_mem_le {b acc : ℕ} {l : List ℕ} (hb : b ∈ cumSumsGo acc l) :
    b ≤ acc + l.sum := by
  induction l generalizing acc with
  | nil => simp [cumSumsGo] at hb
  | cons n ns ih =>
    simp only [cumSumsGo, List.mem_cons] at hb
    rcases hb with rfl | hb
    · simp only [List.sum_cons]; omega
    · have hih := ih hb
      simp only [List.sum_cons]; omega

theorem cumSumsGo_mem_ge {b acc : ℕ} {l : List ℕ} (hb : b ∈ cumSumsGo acc l) :
    acc ≤ b := by
  induction l generalizing acc with
  | nil => simp [cumSumsGo] at hb
  | cons n ns ih =>
    simp only [cumSumsGo, List.mem_cons] at hb
    rcases hb with rfl | hb
    · omega
    · have hih := ih hb
      omega

theorem cumSumsGo_mem_gt {b acc : ℕ} {l : List ℕ} (hl : ∀ n ∈ l, 0 < n)
    (hb : b ∈ cumSumsGo acc l) : acc < b := by
  induction l generalizing acc with
  | nil => simp [cumSumsGo] at hb
  | cons n ns ih =>
    simp only [cumSumsGo, List.mem_cons] at hb
    have hn : 0 < n := hl n (List.mem_cons_self n ns)
    rcases hb with rfl | hb
    · omega
    · have hih := ih (fun m hm => hl m (List.mem_cons_of_mem n hm)) hb
      omega

theorem cumSumsGo_pairwise_le (acc : ℕ) (l : List ℕ) :
    List.Pairwise (fun a b => a ≤ b) (cumSumsGo acc l) := by
  induction l generalizing acc with
  | nil => exact List.Pairwise.nil
  | cons n ns ih =>
    exact List.Pairwise.cons (fun b hb => cumSumsGo_mem_ge hb) (ih (acc + n))

theorem cumSumsGo_pairwise_lt {l : List ℕ} (hl : ∀ n ∈ l, 0 < n) (acc : ℕ) :
    List.Pairwise (fun a b => a < b) (cumSumsGo acc l) := by
  induction l generalizing acc with
  | nil => exact List.Pairwise.nil
  | cons n ns ih =>
    refine List.Pairwise.cons
      (fun b hb => cumSumsGo_mem_gt (fun m hm => hl m (List.mem_cons_of_mem n hm)) hb)
      (ih (fun m hm => hl m (List.mem_cons_of_mem n hm)) (acc + n))

theorem cumSumsGo_dropLast_lt {b acc : ℕ} {l : List ℕ} (hl : ∀ n ∈ l, 0 < n)
    (hb : b ∈ (cumSumsGo acc l).dropLast) : b < acc + l.sum := by
  induction l generalizing acc with
  | nil => simp [cumSumsGo] at hb
  | cons n ns ih =>
    cases ns with
    | nil => simp [cumSumsGo] at hb
    | cons m ms =>
      rw [show cumSumsGo acc (n :: m :: ms) =
            (acc + n) :: cumSumsGo (acc + n) (m :: ms) from rfl] at hb
      rw [List.dropLast_cons_of_ne_nil (by simp [cumSumsGo])] at hb
      have hm : 0 < m := hl m (List.mem_cons_of_mem n (List.mem_cons_self m ms))
      rcases List.mem_cons.mp hb with rfl | hb
      · simp only [List.sum_cons]
        omega
      · have hih := ih (fun x hx => hl x (List.mem_cons_of_mem n hx)) hb
        simp only [List.sum_cons] at hih ⊢
        omega

theorem rawTokens_length (s : String) :
    (rawTokens s).length = (paragraphTokenCounts s).sum := by
  rw [rawTokens, List.length_flatten, List.map_map, paragraphTokenCounts]
  rfl

/-! ### Claim theorems -/

/-- Claim C1.  The Block Scorer does not compute each gap's score from that gap's
own windows alone: `before_count`/`after_count` are initialized before the gap loop
and never reset, so counts from groups of earlier gaps persist.  On the spec's own
scenario groups with `k = 1`, the code yields numerator 1 at gap 2 (the word `mat`
entered `before_count` at gap 1 and is never removed), whereas the windows-only
computation prescribed by the claim (`block_score_spec`) yields numerator 0 there,
so the two disagree. -/
theorem block_score_uses_stale_counts :
    block_score 1 seqsC vocabC = [(0, 2), (1, 12)] ∧
    block_score_spec 1 seqsC vocabC = [(0, 2), (0, 3)] ∧
    block_score 1 seqsC vocabC ≠ block_score_spec 1 seqsC vocabC := by
  refine ⟨rfl, rfl, ?_⟩
  decide

/-- Claim C2.  On the spec's concrete scenario text with `w = 3`, stop words
`{the, on}` and the identity lemmatizer, the tokenizer does produce the three
claimed groups, `paragraph_breaks = [6]` and the claimed six-word vocabulary; but
with `k = 1` the Block Scorer's two scores are not both 0: the second gap's
(numerator, denominator²) pair is `(1, 12)`, i.e. the emitted score is
`1/sqrt 12 ≠ 0`, because the stale `before_count` still holds gap 1's words. -/
theorem concrete_scenario_second_score_nonzero :
    tokenize_string ["the", "on"] id "the cat sat on the mat\n\ndog ran fast dog ran" 3 =
      some (seqsC, ["cat", "sat", "mat", "fast", "dog", "ran"], [6]) ∧
    block_score 1 seqsC ["cat", "sat", "mat", "fast", "dog", "ran"] = [(0, 2), (1, 12)] ∧
    (block_score 1 seqsC ["cat", "sat", "mat", "fast", "dog", "ran"]).map
        (fun p => (p.1 : ℝ) / (if p.2 = 0 then 1 else Real.sqrt p.2)) ≠ [0, 0] := by
  refine ⟨rfl, rfl, ?_⟩
  rw [show block_score 1 seqsC ["cat", "sat", "mat", "fast", "dog", "ran"] =
        [(0, 2), (1, 12)] from rfl]
  intro h
  simp only [List.map_cons, List.map_nil, List.cons.injEq, and_true] at h
  have h2 := h.2
  norm_num at h2

/-- Claim C3.  The tokenizer never lowercases its input (the docstring's step 1 is
not implemented): on input `"The"` the regex, which only matches `[a-z]` runs,
skips the uppercase `T` and extracts the token `"he"`, whereas the lowercased
input yields `"the"`; tokenization is therefore not case-insensitive. -/
theorem tokenize_not_case_insensitive :
    tokenize_string [] id "The" 1 = some ([["he"]], ["he"], []) ∧
    tokenize_string [] id "the" 1 = some ([["the"]], ["the"], []) ∧
    tokenize_string [] id "The" 1 ≠ tokenize_string [] id "the" 1 := by
  refine ⟨rfl, rfl, ?_⟩
  decide

/-- Claim C4.  A closed group is not represented as a multiset of its surviving
tokens, and the lemmatizer is not applied exactly once: iterating the group's
`Counter` yields only its distinct keys, so `"cat cat"` with `w = 2` produces the
group `["cat"]` (count 1, not 2); and both comprehensions of lines 90-95 call the
lemmatizer, so a lemmatizer appending `x` turns `"cat"` into `"catxx"`. -/
theorem group_counts_dropped_and_double_lemmatization :
    tokenize_string [] id "cat cat" 2 = some ([["cat"]], ["cat"], []) ∧
    tokenize_string [] (fun t => t.push 'x') "cat" 1 =
      some ([["catxx"]], ["cat"], []) := ⟨rfl, rfl⟩

/-- Claim C5 (counterexample).  Neither function validates its size argument: the
tokenizer called with `w = -2` returns a result (it groups by 2) instead of
failing with `InvalidArgument`, and the Block Scorer called with `k = -1` returns
a score list instead of failing. -/
theorem no_invalid_argument_error :
    tokenize_string [] id "x y" (-2) = some ([["x", "y"]], ["x", "y"], []) ∧
    tokenize_string [] id "x y" (-2) ≠ none ∧
    block_score (-1) [["c"], ["d"]] ["c", "d"] = [(0, 0)] := by
  refine ⟨rfl, ?_, rfl⟩
  decide

/-- Claim C5 (amended).  What the code actually does with non-positive sizes: for
`w < 0` the tokenizer succeeds (Python's `index % w == 0` holds exactly when `|w|`
divides `index`), and for `k ≤ 0` the Block Scorer runs its accumulation loop zero
times at every gap and returns a `(0, 0)` pair — score 0 — per gap, never an
error. -/
theorem no_argument_validation :
    (∀ (stop : List String) (lem : String → String) (s : String) (w : ℤ),
      w < 0 → (tokenize_string stop lem s w).isSome = true) ∧
    (∀ (k : ℤ) (seqs : List (List String)) (vocab : List String), k ≤ 0 →
      block_score k seqs vocab =
        (List.range' 1 (seqs.length - 1)).map (fun _ => (0, 0))) := by
  constructor
  · intro stop lem s w hw
    rw [tokenize_string]
    simp only [if_neg (fun hcon : w = 0 ∧ rawTokens s ≠ [] => hw.ne hcon.1)]
    rfl
  · intro k seqs vocab hk
    rw [block_score, blockGo_of_nonpos hk]

/-- Witness for the amended C5 theorem at concrete inputs. -/
theorem no_argument_validation_witness :
    (tokenize_string [] id "a b" (-1)).isSome = true ∧
    block_score 0 [["a"], ["b"]] ["a", "b"] = [(0, 0)] :=
  ⟨no_argument_validation.1 [] id "a b" (-1) (by decide),
   (no_argument_validation.2 0 [["a"], ["b"]] ["a", "b"] (by decide)).trans rfl⟩

/-- Claim C6.  The score is not 0 at every gap whose own before/after windows
share no vocabulary word: at gap 2 of the scenario groups with `k = 1`, the
windows are group 1 (`[mat]`) and group 2 (`[dog, ran, fast]`), which share no
vocabulary word, yet the emitted pair is `(1, 12)` — score `1/sqrt 12`, not 0 —
because the never-reset `before_count` still contains gap 1's words. -/
theorem disjoint_windows_nonzero_score :
    block_score 1 seqsC vocabC = [(0, 2), (1, 12)] ∧
    vocabC.filter
        (fun t => (seqsC.getD 1 []).contains t && (seqsC.getD 2 []).contains t) = [] ∧
    (block_score 1 seqsC vocabC).map
        (fun p => (p.1 : ℝ) / (if p.2 = 0 then 1 else Real.sqrt p.2)) ≠ [0, 0] := by
  refine ⟨rfl, rfl, ?_⟩
  rw [show block_score 1 seqsC vocabC = [(0, 2), (1, 12)] from rfl]
  intro h
  simp only [List.map_cons, List.map_nil, List.cons.injEq, and_true] at h
  have h2 := h.2
  norm_num at h2

/-- Claim C7.  Reversing the group sequence does not reverse the score sequence:
on `seqsA = [[a], [a], [b]]` with `k = 1` the forward pairs are
`[(1,1), (2,8)]` (scores `[1, 2/sqrt 8]`) while the reversed input yields
`[(0,1), (2,8)]` (scores `[0, 2/sqrt 8]`), and `[1, 2/sqrt 8]` is not the reverse
`[2/sqrt 8, 0]` — the accumulated counters are not symmetric under reversal. -/
theorem reversal_not_symmetric :
    block_score 1 seqsA vocabA = [(1, 1), (2, 8)] ∧
    block_score 1 seqsA.reverse vocabA = [(0, 1), (2, 8)] ∧
    ¬ ((block_score 1 seqsA vocabA).map
         (fun p => (p.1 : ℝ) / (if p.2 = 0 then 1 else Real.sqrt p.2)) =
       ((block_score 1 seqsA.reverse vocabA).map
         (fun p => (p.1 : ℝ) / (if p.2 = 0 then 1 else Real.sqrt p.2))).reverse) := by
  refine ⟨rfl, rfl, ?_⟩
  rw [show block_score 1 seqsA vocabA = [(1, 1), (2, 8)] from rfl,
      show block_score 1 seqsA.reverse vocabA = [(0, 1), (2, 8)] from rfl]
  intro h
  simp only [List.map_cons, List.map_nil, List.reverse_cons, List.reverse_nil,
    List.nil_append, List.singleton_append, List.cons.injEq, and_true] at h
  have h2 := h.2
  norm_num at h2

/-- Claim C8.  For every `k > 0` the Block Scorer is total and returns exactly
`len(groups) - 1` scores (so the empty list whenever there are fewer than two
groups), one per gap in ascending order, and every group index read by a gap's
before- or after-window lies inside the group sequence. -/
theorem block_score_length_and_bounds (k : ℤ) (_hk : 0 < k)
    (seqs : List (List String)) (vocab : List String) :
    (block_score k seqs vocab).length = seqs.length - 1 ∧
    ∀ gap ∈ List.range' 1 (seqs.length - 1), ∀ i,
      (i ∈ beforeIdxs k seqs.length gap ∨ i ∈ afterIdxs k seqs.length gap) →
      i < seqs.length := by
  constructor
  · rw [block_score, blockGo_length, List.length_range']
  · intro gap hgap i hi
    obtain ⟨j, hj, rfl⟩ := List.mem_range'.mp hgap
    have hgn : 1 + 1 * j < seqs.length := by omega
    have hle : 1 + 1 * j ≤ seqs.length := le_of_lt hgn
    have hc1 := currentK_le_gap k seqs.length (1 + 1 * j)
    have hc2 := currentK_le_sub k hle
    rcases hi with hi | hi
    · obtain ⟨m, hm, rfl⟩ := List.mem_map.mp hi
      have hmc := List.mem_range.mp hm
      omega
    · obtain ⟨m, hm, rfl⟩ := List.mem_map.mp hi
      have hmc := List.mem_range.mp hm
      omega

/-- Witness for C8 at `k = 1` on the three-group input. -/
theorem block_score_length_and_bounds_witness :
    (0 : ℤ) < 1 ∧ (block_score 1 seqsA vocabA).length = seqsA.length - 1 :=
  ⟨by decide, (block_score_length_and_bounds 1 (by decide) seqsA vocabA).1⟩

/-- Claim C9 (counterexample).  A nonempty paragraph can contain zero tokens
(e.g. digits only), so paragraph breaks need be neither strictly increasing nor
strictly below the total token count: on `"ab\n123\n456"` the breaks are
`[1, 1]` while the raw token stream has length 1. -/
theorem paragraph_breaks_violation :
    paragraphBreaks "ab\n123\n456" = [1, 1] ∧
    (rawTokens "ab\n123\n456").length = 1 ∧
    ¬ (List.Pairwise (fun a b => a < b) (paragraphBreaks "ab\n123\n456") ∧
       ∀ b ∈ paragraphBreaks "ab\n123\n456", b < (rawTokens "ab\n123\n456").length) := by
  refine ⟨rfl, rfl, ?_⟩
  decide

/-- Claim C9 (amended).  For every input, `paragraph_breaks` has length
`max(0, nonempty-paragraph count - 1)`, is non-decreasing, and each value is at
most the total raw token count; the claimed strict increase and strict bound do
hold under the additional assumption that every nonempty paragraph contributes at
least one token. -/
theorem paragraph_breaks_invariants (s : String) :
    (paragraphBreaks s).length = (paragraphs s).length - 1 ∧
    List.Pairwise (fun a b => a ≤ b) (paragraphBreaks s) ∧
    (∀ b ∈ paragraphBreaks s, b ≤ (rawTokens s).length) ∧
    ((∀ p ∈ paragraphs s, (findall p).length ≠ 0) →
      List.Pairwise (fun a b => a < b) (paragraphBreaks s) ∧
      ∀ b ∈ paragraphBreaks s, b < (rawTokens s).length) := by
  refine ⟨?_, ?_, ?_, ?_⟩
  · rw [paragraphBreaks, List.length_dropLast, cumSums, cumSumsGo_length,
      paragraphTokenCounts, List.length_map]
  · exact List.Pairwise.sublist (List.dropLast_sublist _)
      (cumSumsGo_pairwise_le 0 (paragraphTokenCounts s))
  · intro b hb
    have hb' : b ∈ cumSums (paragraphTokenCounts s) :=
      (List.dropLast_sublist _).subset hb
    have := cumSumsGo_mem_le hb'
    rw [rawTokens_length]
    omega
  · intro hpos
    have hpos' : ∀ n ∈ paragraphTokenCounts s, 0 < n := by
      intro n hn
      obtain ⟨p, hp, rfl⟩ := List.mem_map.mp hn
      exact Nat.pos_of_ne_zero (hpos p hp)
    constructor
    · exact List.Pairwise.sublist (List.dropLast_sublist _)
        (cumSumsGo_pairwise_lt hpos' 0)
    · intro b hb
      have := cumSumsGo_dropLast_lt hpos' hb
      rw [rawTokens_length]
      omega

/-- Witness for the amended C9 theorem on a two-paragraph input whose paragraphs
both contain a token. -/
theorem paragraph_breaks_invariants_witness :
    (paragraphBreaks "a\nb").length = (paragraphs "a\nb").length - 1 ∧
    List.Pairwise (fun a b => a < b) (paragraphBreaks "a\nb") :=
  ⟨(paragraph_breaks_invariants "a\nb").1,
   ((paragraph_breaks_invariants "a\nb").2.2.2 (by decide)).1⟩

/-- Claim C10.  The returned vocabulary is exactly the distinct raw tokens of the
whole text that are not stop words: a word is in it iff it occurs in the raw
token stream and is not a stop word; and it is built from raw (non-lemmatized)
surface forms — replacing the lemmatizer by any other function leaves the
vocabulary component unchanged, even though the per-group tokens do change. -/
theorem vocabulary_raw_non_stop (stop : List String) (lem : String → String)
    (s : String) (w : ℤ) (gs : List (List String)) (vocab : List String)
    (breaks : List ℕ)
    (h : tokenize_string stop lem s w = some (gs, vocab, breaks)) :
    (∀ v, v ∈ vocab ↔ (v ∈ rawTokens s ∧ v ∉ stop)) ∧
    ∀ lem' : String → String,
      Option.map (fun r => r.2.1) (tokenize_string stop lem' s w) =
        Option.map (fun r => r.2.1) (tokenize_string stop lem s w) := by
  constructor
  · rw [tokenize_string] at h
    by_cases hc : w = 0 ∧ rawTokens s ≠ []
    · rw [if_pos hc] at h
      exact absurd h (by simp)
    · rw [if_neg hc] at h
      simp only [Option.some.injEq, Prod.mk.injEq] at h
      obtain ⟨-, hv, -⟩ := h
      intro v
      rw [← hv]
      simp [List.mem_filter, List.mem_dedup]
  · intro lem'
    rw [tokenize_string, tokenize_string]
    by_cases hc : w = 0 ∧ rawTokens s ≠ []
    · rw [if_pos hc, if_pos hc]
    · rw [if_neg hc, if_neg hc]
      rfl

/-- Witness for C10 on a concrete text with one stop word. -/
theorem vocabulary_raw_non_stop_witness :
    ("cat" ∈ (["cat"] : List String)) ↔
      ("cat" ∈ rawTokens "the cat" ∧ "cat" ∉ (["the"] : List String)) :=
  (vocabulary_raw_non_stop ["the"] id "the cat" 1 [[], ["cat"]] ["cat"] [] rfl).1 "cat"

end TextTiling
